import Mathlib

/-!
Shallow embedding of the `ttl_cache` crate (src/lib.rs): a key-value cache in
which every record carries an absolute expiration instant and its original
duration.  Instants and durations are modelled as natural numbers of ticks;
each operation takes the instant `now` at which it runs, standing for the
`Instant::now()` calls the Rust code performs during that operation.

The underlying ordered container (the external `linked_hash_map` crate) is not
part of this repository; its operations are modelled from the specification's
collaborator contract as an association list ordered oldest-first, with
insertion-order traversal and move-to-end semantics on reinsertion.
-/

/-- Model of `std::time::Instant`: a point in time, in abstract ticks. -/
abbrev Instant := Nat

/-- Model of `std::time::Duration`: a span of time, in abstract ticks. -/
abbrev Duration := Nat

/-- `InternalEntry` (src/lib.rs lines 107-112): the stored record, wrapping the
caller's value with its absolute expiration instant and original duration. -/
structure InternalEntry (V : Type) where
  value : V
  expiration : Instant
  duration : Duration
deriving Repr, DecidableEq

/-- `InternalEntry::new` (lines 114-121): expiration is `now + duration`. -/
def InternalEntry.new {V : Type} (now : Instant) (v : V) (duration : Duration) :
    InternalEntry V :=
  { value := v, expiration := now + duration, duration := duration }

/-- `InternalEntry::is_expired` (lines 123-125): `Instant::now() > self.expiration`. -/
def InternalEntry.is_expired {V : Type} (now : Instant) (e : InternalEntry V) : Bool :=
  decide (e.expiration < now)

/-- `InternalEntry::reset_duration` (lines 127-129): expiration becomes
`now + self.duration`. -/
def InternalEntry.reset_duration {V : Type} (now : Instant) (e : InternalEntry V) :
    InternalEntry V :=
  { e with expiration := now + e.duration }

/-- Modelled from the spec: the external ordered map primitive (`linked_hash_map`,
not part of this repository) is an insertion-ordered association, here a list
with the oldest entry at the head.  Keyed lookup returns the first record for
the key (spec section 6, collaborator contract, item a). -/
def lhmGet {K V : Type} [DecidableEq K] (m : List (K × V)) (k : K) : Option V :=
  (m.find? (fun p => decide (p.1 = k))).map (fun p => p.2)

/-- Modelled from the spec: keyed insertion into the external ordered map, with
stable insertion order and move-to-end semantics on reinsertion (spec section 6,
item b): any record for the key leaves its old position and the new record is
attached at the newest end; the previous value for the key is returned. -/
def lhmInsert {K V : Type} [DecidableEq K] (m : List (K × V)) (k : K) (v : V) :
    Option V × List (K × V) :=
  (lhmGet m k, m.filter (fun p => decide (p.1 ≠ k)) ++ [(k, v)])

/-- Modelled from the spec: keyed removal from the external ordered map (spec
section 6, item a), returning the removed value. -/
def lhmRemove {K V : Type} [DecidableEq K] (m : List (K × V)) (k : K) :
    Option V × List (K × V) :=
  (lhmGet m k, m.filter (fun p => decide (p.1 ≠ k)))

/-- Modelled from the spec: keyed mutable access (spec section 6, item a)
mutates the first record for the key in place, leaving the traversal order
unchanged. -/
def lhmModify {K V : Type} [DecidableEq K] :
    List (K × V) → K → (V → V) → List (K × V)
  | [], _, _ => []
  | p :: rest, k, f =>
      if p.1 = k then (p.1, f p.2) :: rest else p :: lhmModify rest k f

/-- Modelled from the spec: the occupied entry-view's replace-and-return-old-value
operation of the external ordered map (spec section 6, item e).  Per the
reinsertion invariant (spec section 3) and the move-to-end semantics on
reinsertion (section 6, item b), the crate detaches the node and re-attaches it
at the newest end, so the operation coincides with keyed insertion. -/
def lhmEntryReplace {K V : Type} [DecidableEq K] (m : List (K × V)) (k : K) (v : V) :
    Option V × List (K × V) :=
  lhmInsert m k v

/-- `TtlCache` (lines 133-141): the ordered map of records plus the optional
stats counters (`hits`, `misses`, `since`), compiled in with feature `stats`. -/
structure TtlCache (K V : Type) where
  map : List (K × InternalEntry V)
  hits : Nat
  misses : Nat
  since : Instant
deriving Repr

/-- `TtlCache::new` (lines 153-163): empty map, zeroed counters, `since := now`. -/
def TtlCache.new (K V : Type) (now : Instant) : TtlCache K V :=
  { map := [], hits := 0, misses := 0, since := now }

/-- The loop body of `TtlCache::remove_expired` (lines 572-580): while the
front (oldest) entry exists and is expired, pop it. -/
def popExpiredFront {K V : Type} (now : Instant) :
    List (K × InternalEntry V) → List (K × InternalEntry V)
  | [] => []
  | p :: rest => if p.2.is_expired now then popExpiredFront now rest else p :: rest

/-- `TtlCache::remove_expired` (lines 572-580). -/
def TtlCache.remove_expired {K V : Type} (now : Instant) (c : TtlCache K V) :
    TtlCache K V :=
  { c with map := popExpiredFront now c.map }

/-- `TtlCache::insert` (lines 224-229): sweep, then unconditional map insert;
the previous record's value is returned only if it was not expired. -/
def TtlCache.insert {K V : Type} [DecidableEq K] (now : Instant) (c : TtlCache K V)
    (k : K) (v : V) (ttl : Duration) : Option V × TtlCache K V :=
  let c1 := c.remove_expired now
  let to_insert := InternalEntry.new now v ttl
  let old_val := (lhmInsert c1.map k to_insert).1
  (old_val.bind (fun x => if x.is_expired now then none else some x.value),
   { c1 with map := (lhmInsert c1.map k to_insert).2 })

/-- `TtlCache::get` (lines 251-268): lookup filtered by `is_expired`; one hit or
miss counter increment; the map itself is untouched. -/
def TtlCache.get {K V : Type} [DecidableEq K] (now : Instant) (c : TtlCache K V)
    (k : K) : Option V × TtlCache K V :=
  let to_ret := (lhmGet c.map k).bind
    (fun x => if x.is_expired now then none else some x.value)
  if to_ret.isSome then (to_ret, { c with hits := c.hits + 1 })
  else (to_ret, { c with misses := c.misses + 1 })

/-- `TtlCache::get_mut` (lines 290-311): same visibility rule and counting as
`get`; no change to the stored record. -/
def TtlCache.get_mut {K V : Type} [DecidableEq K] (now : Instant) (c : TtlCache K V)
    (k : K) : Option V × TtlCache K V :=
  let to_ret := (lhmGet c.map k).bind
    (fun x => if x.is_expired now then none else some x.value)
  if to_ret.isSome then (to_ret, { c with hits := c.hits + 1 })
  else (to_ret, { c with misses := c.misses + 1 })

/-- `TtlCache::get_mut_prolong` (lines 333-355): on a live hit the record's
expiration is reset to `now + duration` in place before the value is returned;
otherwise behaves like `get_mut`. -/
def TtlCache.get_mut_prolong {K V : Type} [DecidableEq K] (now : Instant)
    (c : TtlCache K V) (k : K) : Option V × TtlCache K V :=
  match lhmGet c.map k with
  | none => (none, { c with misses := c.misses + 1 })
  | some x =>
      if x.is_expired now then (none, { c with misses := c.misses + 1 })
      else (some x.value,
        { c with map := lhmModify c.map k (InternalEntry.reset_duration now),
                 hits := c.hits + 1 })

/-- `TtlCache::remove` (lines 400-408): physical removal regardless of
expiration; the value is returned only if it was not expired. -/
def TtlCache.remove {K V : Type} [DecidableEq K] (now : Instant) (c : TtlCache K V)
    (k : K) : Option V × TtlCache K V :=
  ((lhmRemove c.map k).1.bind
      (fun x => if x.is_expired now then none else some x.value),
   { c with map := (lhmRemove c.map k).2 })

/-- `TtlCache::contains_key` (lines 199-206): literally `self.get(key).is_some()`,
so it inherits the expiration check and the stats increment of `get`. -/
def TtlCache.contains_key {K V : Type} [DecidableEq K] (now : Instant)
    (c : TtlCache K V) (k : K) : Bool × TtlCache K V :=
  ((c.get now k).1.isSome, (c.get now k).2)

/-- The two shapes of the entry view (lines 19-25). -/
inductive EntryKind where
  | Occupied : EntryKind
  | Vacant : EntryKind
deriving Repr, DecidableEq

/-- `TtlCache::entry` (lines 416-433): an expired record for the key is
physically removed first; the view is Occupied exactly when a record remains. -/
def TtlCache.entry {K V : Type} [DecidableEq K] (now : Instant) (c : TtlCache K V)
    (k : K) : EntryKind × TtlCache K V :=
  let should_remove := ((lhmGet c.map k).map (fun e => e.is_expired now)).getD false
  let c1 := if should_remove then { c with map := (lhmRemove c.map k).2 } else c
  if (lhmGet c1.map k).isSome then (EntryKind.Occupied, c1) else (EntryKind.Vacant, c1)

/-- `OccupiedEntry::insert` (lines 70-73): wraps the value and duration in a
fresh record, hands it to the underlying entry view's replace operation, and
returns the old record's value (no expiration filter, no sweep). -/
def TtlCache.occupied_insert {K V : Type} [DecidableEq K] (now : Instant)
    (c : TtlCache K V) (k : K) (v : V) (duration : Duration) :
    Option V × TtlCache K V :=
  ((lhmEntryReplace c.map k (InternalEntry.new now v duration)).1.map
      (fun e => e.value),
   { c with map := (lhmEntryReplace c.map k (InternalEntry.new now v duration)).2 })

/-- `TtlCache::iter` (lines 453-456): a full sweep, then the remaining records
in oldest-to-newest order. -/
def TtlCache.iter {K V : Type} (now : Instant) (c : TtlCache K V) :
    List (K × InternalEntry V) × TtlCache K V :=
  ((c.remove_expired now).map, c.remove_expired now)

/-- `Iter::next` (lines 612-623): take the oldest remaining record; if it is
expired at the instant of this call, skip it and continue with the rest. -/
def iterNext {K V : Type} (now : Instant) :
    List (K × InternalEntry V) → Option ((K × V) × List (K × InternalEntry V))
  | [] => none
  | p :: rest =>
      if p.2.is_expired now then iterNext now rest
      else some ((p.1, p.2.value), rest)

/-- `Iter::next_back` (lines 631-644): take the newest remaining record; if it
is expired, halt immediately (return none) without examining earlier records. -/
def iterNextBack {K V : Type} (now : Instant) (l : List (K × InternalEntry V)) :
    Option ((K × V) × List (K × InternalEntry V)) :=
  match l.getLast? with
  | none => none
  | some p =>
      if p.2.is_expired now then none else some ((p.1, p.2.value), l.dropLast)

/-- `impl Clone for TtlCache` (lines 583-599): the map is cloned and the stats
counters of the clone are fresh cells initialised to the current counts; `since`
is copied. -/
def TtlCache.clone {K V : Type} (c : TtlCache K V) : TtlCache K V :=
  { map := c.map, hits := c.hits, misses := c.misses, since := c.since }

example : InternalEntry.is_expired 5 (InternalEntry.new 0 (7 : Nat) 5) = false := by decide

example : InternalEntry.is_expired 6 (InternalEntry.new 0 (7 : Nat) 5) = true := by decide

example :
    (((TtlCache.new Nat Nat 0).insert 0 1 10 10).2.insert 0 2 20 10).2.map
      = [(1, ⟨10, 10, 10⟩), (2, ⟨20, 10, 10⟩)] := by decide

theorem lhmGet_nil {K V : Type} [DecidableEq K] (k : K) :
    lhmGet ([] : List (K × V)) k = none := rfl

theorem lhmGet_cons_eq {K V : Type} [DecidableEq K] (p : K × V) (l : List (K × V))
    (k : K) (h : p.1 = k) : lhmGet (p :: l) k = some p.2 := by
  simp [lhmGet, List.find?_cons_of_pos, h]

theorem lhmGet_cons_ne {K V : Type} [DecidableEq K] (p : K × V) (l : List (K × V))
    (k : K) (h : ¬ p.1 = k) : lhmGet (p :: l) k = lhmGet l k := by
  simp [lhmGet, List.find?_cons_of_neg, h]

theorem lhmGet_mem {K V : Type} [DecidableEq K] {l : List (K × V)} {k : K} {e : V}
    (h : lhmGet l k = some e) : (k, e) ∈ l := by
  unfold lhmGet at h
  obtain ⟨p, hp, hpe⟩ := Option.map_eq_some'.1 h
  have hk : p.1 = k := by
    have := List.find?_some hp
    simpa using this
  have hmem := List.mem_of_find?_eq_some hp
  have : p = (k, e) := by
    cases p
    simp_all
  simpa [this] using hmem

theorem lhmGet_key_mem {K V : Type} [DecidableEq K] {l : List (K × V)} {k : K} {e : V}
    (h : lhmGet l k = some e) : k ∈ l.map Prod.fst := by
  exact List.mem_map.2 ⟨(k, e), lhmGet_mem h, rfl⟩

theorem popExpiredFront_decomp {K V : Type} (now : Instant)
    (l : List (K × InternalEntry V)) :
    ∃ pre, l = pre ++ popExpiredFront now l ∧
      ∀ p ∈ pre, p.2.is_expired now = true := by
  induction l with
  | nil => exact ⟨[], rfl, by simp⟩
  | cons p rest ih =>
      by_cases h : p.2.is_expired now
      · obtain ⟨pre, hpre, hall⟩ := ih
        refine ⟨p :: pre, ?_, ?_⟩
        · simpa [popExpiredFront, h] using hpre
        · intro q hq
          rcases List.mem_cons.1 hq with hq | hq
          · simpa [hq] using h
          · exact hall q hq
      · exact ⟨[], by simp [popExpiredFront, h], by simp⟩

theorem popExpiredFront_head {K V : Type} (now : Instant)
    (l : List (K × InternalEntry V)) (p : K × InternalEntry V)
    (h : (popExpiredFront now l).head? = some p) : p.2.is_expired now = false := by
  induction l with
  | nil => simp [popExpiredFront] at h
  | cons q rest ih =>
      by_cases hq : q.2.is_expired now
      · exact ih (by simpa [popExpiredFront, hq] using h)
      · have : q = p := by simpa [popExpiredFront, hq] using h
        simpa [← this] using hq

theorem popExpiredFront_of_all_expired {K V : Type} (now : Instant)
    (pre rest : List (K × InternalEntry V)) (p : K × InternalEntry V)
    (hall : ∀ q ∈ pre, q.2.is_expired now = true)
    (hp : p.2.is_expired now = false) :
    popExpiredFront now (pre ++ p :: rest) = p :: rest := by
  induction pre with
  | nil => simp [popExpiredFront, hp]
  | cons q pre ih =>
      have hq : q.2.is_expired now = true := hall q (by simp)
      simp only [List.cons_append, popExpiredFront, hq, if_true]
      exact ih (fun r hr => hall r (by simp [hr]))

theorem lhmGet_popExpiredFront {K V : Type} [DecidableEq K] (now : Instant)
    (l : List (K × InternalEntry V)) (k : K) (e : InternalEntry V)
    (hget : lhmGet l k = some e) (hlive : e.is_expired now = false) :
    lhmGet (popExpiredFront now l) k = some e := by
  induction l with
  | nil => simp [lhmGet] at hget
  | cons p rest ih =>
      by_cases hk : p.1 = k
      · have hpe : p.2 = e := by
          have := lhmGet_cons_eq p rest k hk
          rw [this] at hget
          exact Option.some.inj hget
        have hplive : p.2.is_expired now = false := by rw [hpe]; exact hlive
        rw [popExpiredFront]
        simp only [hplive, Bool.false_eq_true, if_false]
        rw [lhmGet_cons_eq p rest k hk, hpe]
      · have hrest : lhmGet rest k = some e := by
          rw [lhmGet_cons_ne p rest k hk] at hget
          exact hget
        rw [popExpiredFront]
        by_cases hp : p.2.is_expired now
        · simp only [hp, if_true]
          exact ih hrest
        · simp only [hp, Bool.false_eq_true, if_false]
          rw [lhmGet_cons_ne p rest k hk]
          exact hrest

theorem lhmGet_popExpiredFront_none {K V : Type} [DecidableEq K] (now : Instant)
    (l : List (K × InternalEntry V)) (k : K)
    (hget : lhmGet l k = none) : lhmGet (popExpiredFront now l) k = none := by
  induction l with
  | nil => simp [popExpiredFront, lhmGet]
  | cons p rest ih =>
      by_cases hk : p.1 = k
      · rw [lhmGet_cons_eq p rest k hk] at hget
        exact absurd hget (by simp)
      · have hrest : lhmGet rest k = none := by
          rw [lhmGet_cons_ne p rest k hk] at hget
          exact hget
        rw [popExpiredFront]
        by_cases hp : p.2.is_expired now
        · simp only [hp, if_true]
          exact ih hrest
        · simp only [hp, Bool.false_eq_true, if_false]
          rw [lhmGet_cons_ne p rest k hk]
          exact hrest

theorem lhmGet_of_suffix {K V : Type} [DecidableEq K] (pre l2 : List (K × V))
    (k : K) (e : V) (hnd : ((pre ++ l2).map Prod.fst).Nodup)
    (hget : lhmGet l2 k = some e) : lhmGet (pre ++ l2) k = some e := by
  induction pre with
  | nil => simpa using hget
  | cons p pre ih =>
      have hnd1 : (p.1 :: (pre ++ l2).map Prod.fst).Nodup := by
        simpa only [List.cons_append, List.map_cons] using hnd
      have hhead := (List.nodup_cons.1 hnd1).1
      have hnd2 := (List.nodup_cons.1 hnd1).2
      have hk : ¬ p.1 = k := by
        intro hpk
        have hkmem : k ∈ (pre ++ l2).map Prod.fst := by
          have : k ∈ l2.map Prod.fst := lhmGet_key_mem hget
          simp [this]
        rw [hpk] at hhead
        exact hhead hkmem
      rw [List.cons_append, lhmGet_cons_ne p (pre ++ l2) k hk]
      exact ih hnd2

theorem lhmGet_append_single {K V : Type} [DecidableEq K] (l : List (K × V))
    (k : K) (v : V) (h : ∀ p ∈ l, ¬ p.1 = k) :
    lhmGet (l ++ [(k, v)]) k = some v := by
  induction l with
  | nil => simp [lhmGet]
  | cons p rest ih =>
      rw [List.cons_append, lhmGet_cons_ne p (rest ++ [(k, v)]) k (h p (by simp))]
      exact ih (fun q hq => h q (by simp [hq]))

theorem lhmGet_filter_ne {K V : Type} [DecidableEq K] (l : List (K × V)) (k : K) :
    ∀ p ∈ l.filter (fun p => decide (p.1 ≠ k)), ¬ p.1 = k := by
  intro p hp
  have := (List.mem_filter.1 hp).2
  simpa using this

theorem lhmInsert_get {K V : Type} [DecidableEq K] (m : List (K × V)) (k : K) (v : V) :
    lhmGet (lhmInsert m k v).2 k = some v := by
  exact lhmGet_append_single _ k v (lhmGet_filter_ne m k)

theorem lhmInsert_getLast {K V : Type} [DecidableEq K] (m : List (K × V))
    (k : K) (v : V) : (lhmInsert m k v).2.getLast? = some (k, v) := by
  simp [lhmInsert, List.getLast?_concat]

theorem lhmGet_lhmModify {K V : Type} [DecidableEq K] (l : List (K × V)) (k : K)
    (f : V → V) (e : V) (h : lhmGet l k = some e) :
    lhmGet (lhmModify l k f) k = some (f e) := by
  induction l with
  | nil => simp [lhmGet] at h
  | cons p rest ih =>
      by_cases hk : p.1 = k
      · have hpe : p.2 = e := by
          rw [lhmGet_cons_eq p rest k hk] at h
          exact Option.some.inj h
        rw [lhmModify]
        simp only [hk, if_true]
        rw [lhmGet_cons_eq (k, f p.2) rest k rfl, hpe]
      · have hrest : lhmGet rest k = some e := by
          rw [lhmGet_cons_ne p rest k hk] at h
          exact h
        rw [lhmModify]
        simp only [hk, if_false]
        rw [lhmGet_cons_ne p (lhmModify rest k f) k hk]
        exact ih hrest

/-- Claim C1: the expiration predicate is the strict comparison `now > expiration`
(`is_expired` is true exactly when the current instant is strictly greater than
the stored deadline), so an observation made exactly at the deadline instant
still sees the entry as live; and every visibility decision — `get`, `get_mut`,
`get_mut_prolong`, `insert`'s return value, `remove`'s return value, the sweep,
forward and backward iteration — applies this one predicate at the moment of the
check, so at the deadline instant each of them still treats the entry as live. -/
theorem expiry_predicate_strict_and_uniform {K V : Type} [DecidableEq K]
    (now : Instant) (k : K) (e : InternalEntry V) (c : TtlCache K V)
    (v2 : V) (ttl2 : Duration)
    (hget : lhmGet c.map k = some e) (hdl : e.expiration = now) :
    (∀ t : Instant, e.is_expired t = true ↔ e.expiration < t) ∧
    e.is_expired now = false ∧
    (c.get now k).1 = some e.value ∧
    (c.get_mut now k).1 = some e.value ∧
    (c.get_mut_prolong now k).1 = some e.value ∧
    (c.remove now k).1 = some e.value ∧
    (c.insert now k v2 ttl2).1 = some e.value ∧
    (∀ p ∈ c.map, p.2.is_expired now = false → p ∈ (c.remove_expired now).map) ∧
    iterNext now ((k, e) :: c.map) = some ((k, e.value), c.map) ∧
    iterNextBack now (c.map ++ [(k, e)]) = some ((k, e.value), c.map) := by
  have hlive : e.is_expired now = false := by
    simp [InternalEntry.is_expired, hdl]
  refine ⟨?_, hlive, ?_, ?_, ?_, ?_, ?_, ?_, ?_, ?_⟩
  · intro t
    simp [InternalEntry.is_expired]
  · simp [TtlCache.get, hget, hlive]
  · simp [TtlCache.get_mut, hget, hlive]
  · simp [TtlCache.get_mut_prolong, hget, hlive]
  · simp [TtlCache.remove, lhmRemove, hget, hlive]
  · have hswept : lhmGet (popExpiredFront now c.map) k = some e :=
      lhmGet_popExpiredFront now c.map k e hget hlive
    simp [TtlCache.insert, TtlCache.remove_expired, lhmInsert, hswept, hlive]
  · intro p hp hplive
    obtain ⟨pre, hdec, hall⟩ := popExpiredFront_decomp now c.map
    rw [hdec] at hp
    rcases List.mem_append.1 hp with hmem | hmem
    · rw [hall p hmem] at hplive
      cases hplive
    · simpa [TtlCache.remove_expired] using hmem
  · simp [iterNext, hlive]
  · simp [iterNextBack, List.getLast?_concat, hlive, List.dropLast_concat]

/-- Concrete instantiation of C1 at the deadline instant itself. -/
theorem expiry_predicate_strict_and_uniform_witness :
    lhmGet [(1, (⟨9, 5, 5⟩ : InternalEntry Nat))] 1 = some ⟨9, 5, 5⟩ ∧
    (⟨9, 5, 5⟩ : InternalEntry Nat).expiration = 5 ∧
    (((⟨[(1, ⟨9, 5, 5⟩)], 0, 0, 0⟩ : TtlCache Nat Nat).get 5 1).1 = some 9 ∧
     ((⟨[(1, ⟨9, 5, 5⟩)], 0, 0, 0⟩ : TtlCache Nat Nat).remove 5 1).1 = some 9) :=
  ⟨by decide, by decide,
   (expiry_predicate_strict_and_uniform 5 1 ⟨9, 5, 5⟩
      (⟨[(1, ⟨9, 5, 5⟩)], 0, 0, 0⟩ : TtlCache Nat Nat) 0 0
      (by decide) (by decide)).2.2.1,
   (expiry_predicate_strict_and_uniform 5 1 ⟨9, 5, 5⟩
      (⟨[(1, ⟨9, 5, 5⟩)], 0, 0, 0⟩ : TtlCache Nat Nat) 0 0
      (by decide) (by decide)).2.2.2.2.2.1⟩

/-- Claim C2: `insert(key, value, ttl)` first runs the passive sweep, then
unconditionally inserts or overwrites the record, and returns the previous
value exactly when a record for that key existed and was not expired at that
moment; an expired previous value is discarded and `insert` returns none. -/
theorem insert_sweep_overwrite_return {K V : Type} [DecidableEq K]
    (now : Instant) (k : K) (v : V) (ttl : Duration) (c : TtlCache K V)
    (hnd : (c.map.map Prod.fst).Nodup) :
    (c.insert now k v ttl).2.map
      = (lhmInsert (c.remove_expired now).map k (InternalEntry.new now v ttl)).2 ∧
    lhmGet (c.insert now k v ttl).2.map k = some (InternalEntry.new now v ttl) ∧
    (∀ w : V, (c.insert now k v ttl).1 = some w ↔
      ∃ e, lhmGet c.map k = some e ∧ e.is_expired now = false ∧ w = e.value) := by
  refine ⟨rfl, ?_, ?_⟩
  · exact lhmGet_append_single _ k _ (lhmGet_filter_ne (popExpiredFront now c.map) k)
  · intro w
    constructor
    · intro hw
      have hw2 : ((lhmGet (popExpiredFront now c.map) k).bind
          (fun x => if x.is_expired now then none else some x.value)) = some w := hw
      rcases hg : lhmGet (popExpiredFront now c.map) k with _ | e0
      · rw [hg] at hw2
        simp at hw2
      · rw [hg] at hw2
        by_cases hex : e0.is_expired now = true
        · simp [hex] at hw2
        · have hex2 : e0.is_expired now = false := by simpa using hex
          simp only [hex2, Bool.false_eq_true, if_false, Option.some_bind,
            Option.some.injEq] at hw2
          obtain ⟨pre, hdec, -⟩ := popExpiredFront_decomp now c.map
          have hgm : lhmGet c.map k = some e0 := by
            rw [hdec]
            exact lhmGet_of_suffix pre _ k e0 (by rw [← hdec]; exact hnd) hg
          exact ⟨e0, hgm, hex2, hw2.symm⟩
    · rintro ⟨e, hge, hlive, hwe⟩
      have hswept := lhmGet_popExpiredFront now c.map k e hge hlive
      show ((lhmGet (popExpiredFront now c.map) k).bind
          (fun x => if x.is_expired now then none else some x.value)) = some w
      rw [hswept]
      simp [hlive, hwe]

/-- Concrete instantiation of C2: overwriting a live record returns its value
and stores the fresh record. -/
theorem insert_sweep_overwrite_return_witness :
    (([((1 : Nat), (⟨7, 10, 10⟩ : InternalEntry Nat))]).map Prod.fst).Nodup ∧
    lhmGet ((⟨[(1, ⟨7, 10, 10⟩)], 0, 0, 0⟩ : TtlCache Nat Nat).insert 3 1 8 5).2.map 1
      = some (InternalEntry.new 3 8 5) ∧
    (((⟨[(1, ⟨7, 10, 10⟩)], 0, 0, 0⟩ : TtlCache Nat Nat).insert 3 1 8 5).1 = some 7 ↔
      ∃ e, lhmGet [((1 : Nat), (⟨7, 10, 10⟩ : InternalEntry Nat))] 1 = some e ∧
        e.is_expired 3 = false ∧ 7 = e.value) :=
  ⟨by decide,
   (insert_sweep_overwrite_return 3 1 8 5
      (⟨[(1, ⟨7, 10, 10⟩)], 0, 0, 0⟩ : TtlCache Nat Nat) (by decide)).2.1,
   (insert_sweep_overwrite_return 3 1 8 5
      (⟨[(1, ⟨7, 10, 10⟩)], 0, 0, 0⟩ : TtlCache Nat Nat) (by decide)).2.2 7⟩

/-- Claim C3: reinserting under an existing key — via the top-level `insert` or
via an occupied entry-view's `insert` — moves the record to the newest position
of the iteration order, exactly as a fresh insertion would: after inserting keys
in order [1,2,3] and reinserting key 2 by either path, iteration yields the
order [1,3,2] with key 2 carrying the newest value. -/
theorem reinsert_moves_to_newest {K V : Type} [DecidableEq K]
    (now : Instant) (k : K) (v : V) (ttl : Duration) (c : TtlCache K V) :
    (c.insert now k v ttl).2.map.getLast? = some (k, InternalEntry.new now v ttl) ∧
    (c.occupied_insert now k v ttl).2.map.getLast?
      = some (k, InternalEntry.new now v ttl) ∧
    (c.occupied_insert now k v ttl).2.map
      = (lhmInsert c.map k (InternalEntry.new now v ttl)).2 ∧
    (((((((TtlCache.new Nat Nat 0).insert 0 1 10 10).2.insert 0 2 20 10).2.insert
          0 3 30 10).2.insert 0 2 21 10).2.iter 0).1
       = [(1, ⟨10, 10, 10⟩), (3, ⟨30, 10, 10⟩), (2, ⟨21, 10, 10⟩)]) ∧
    ((((((TtlCache.new Nat Nat 0).insert 0 1 10 10).2.insert 0 2 20 10).2.insert
          0 3 30 10).2.entry 0 2).1 = EntryKind.Occupied) ∧
    (((((((TtlCache.new Nat Nat 0).insert 0 1 10 10).2.insert 0 2 20 10).2.insert
          0 3 30 10).2.occupied_insert 0 2 21 10).2.iter 0).1
       = [(1, ⟨10, 10, 10⟩), (3, ⟨30, 10, 10⟩), (2, ⟨21, 10, 10⟩)]) := by
  refine ⟨?_, ?_, rfl, by decide, by decide, by decide⟩
  · exact lhmInsert_getLast _ k _
  · exact lhmInsert_getLast _ k _

/-- Claim C4: `remove_expired` removes exactly the maximal contiguous run of
expired entries at the oldest end — the removed part is an all-expired front
segment, the surviving oldest entry (if any) is live, and the suffix starting at
the first live entry survives untouched; concretely, an expired short-TTL entry
sitting behind a live long-TTL entry remains in the map after the sweep. -/
theorem remove_expired_trims_oldest_run {K V : Type} (now : Instant)
    (c : TtlCache K V) :
    (∃ pre, c.map = pre ++ (c.remove_expired now).map ∧
        ∀ p ∈ pre, p.2.is_expired now = true) ∧
    (∀ p, (c.remove_expired now).map.head? = some p →
        p.2.is_expired now = false) ∧
    (∀ pre p rest, c.map = pre ++ p :: rest →
        (∀ q ∈ pre, q.2.is_expired now = true) → p.2.is_expired now = false →
        (c.remove_expired now).map = p :: rest) ∧
    ((⟨[(1, ⟨10, 100, 100⟩), (2, ⟨20, 5, 5⟩)], 0, 0, 0⟩ :
        TtlCache Nat Nat).remove_expired 50).map
      = [(1, ⟨10, 100, 100⟩), (2, ⟨20, 5, 5⟩)] ∧
    (⟨20, 5, 5⟩ : InternalEntry Nat).is_expired 50 = true := by
  refine ⟨?_, ?_, ?_, by decide, by decide⟩
  · exact popExpiredFront_decomp now c.map
  · intro p hp
    exact popExpiredFront_head now c.map p hp
  · intro pre p rest hdec hall hp
    show popExpiredFront now c.map = p :: rest
    rw [hdec]
    exact popExpiredFront_of_all_expired now pre rest p hall hp

/-- Concrete instantiation of C4: with an all-expired front segment before a
live entry, the sweep removes exactly that segment. -/
theorem remove_expired_trims_oldest_run_witness :
    (∀ q ∈ ([(0, ⟨9, 1, 1⟩)] : List (Nat × InternalEntry Nat)),
        q.2.is_expired 50 = true) ∧
    ((⟨[(0, ⟨9, 1, 1⟩), (1, ⟨10, 100, 100⟩), (2, ⟨20, 5, 5⟩)], 0, 0, 0⟩ :
        TtlCache Nat Nat).remove_expired 50).map
      = [(1, ⟨10, 100, 100⟩), (2, ⟨20, 5, 5⟩)] :=
  ⟨by decide,
   (remove_expired_trims_oldest_run 50
      (⟨[(0, ⟨9, 1, 1⟩), (1, ⟨10, 100, 100⟩), (2, ⟨20, 5, 5⟩)], 0, 0, 0⟩ :
        TtlCache Nat Nat)).2.2.1 [(0, ⟨9, 1, 1⟩)] (1, ⟨10, 100, 100⟩)
      [(2, ⟨20, 5, 5⟩)] rfl (by decide) (by decide)⟩

theorem lhmGet_filter_ne_self {K V : Type} [DecidableEq K] (l : List (K × V))
    (k : K) : lhmGet (l.filter (fun p => decide (p.1 ≠ k))) k = none := by
  unfold lhmGet
  rw [List.find?_eq_none.2]
  · rfl
  · intro p hp
    have := lhmGet_filter_ne l k p hp
    simpa using this

theorem entry_case_absent {K V : Type} [DecidableEq K] (now : Instant) (k : K)
    (c : TtlCache K V) (hg : lhmGet c.map k = none) :
    c.entry now k = (EntryKind.Vacant, c) := by
  simp [TtlCache.entry, hg]

theorem entry_case_live {K V : Type} [DecidableEq K] (now : Instant) (k : K)
    (c : TtlCache K V) (e : InternalEntry V) (hg : lhmGet c.map k = some e)
    (hl : e.is_expired now = false) :
    c.entry now k = (EntryKind.Occupied, c) := by
  simp [TtlCache.entry, hg, hl]

theorem lhmGet_filter_bne {K V : Type} [DecidableEq K] (l : List (K × V))
    (k : K) : lhmGet (l.filter (fun p => !decide (p.1 = k))) k = none := by
  unfold lhmGet
  rw [List.find?_eq_none.2]
  · rfl
  · intro p hp
    have := (List.mem_filter.1 hp).2
    simpa using this

theorem entry_case_expired {K V : Type} [DecidableEq K] (now : Instant) (k : K)
    (c : TtlCache K V) (e : InternalEntry V) (hg : lhmGet c.map k = some e)
    (hx : e.is_expired now = true) :
    c.entry now k
      = (EntryKind.Vacant,
         { c with map := c.map.filter (fun p => decide (p.1 ≠ k)) }) := by
  simp [TtlCache.entry, hg, hx, lhmRemove, lhmGet_filter_ne_self, lhmGet_filter_bne]

/-- Claim C5: `entry(key)` physically removes an expired record for the key
before the view is constructed; the view is Occupied exactly when a live record
exists, Vacant exactly when no record for the key remains afterwards (so both an
absent key and an expired key yield Vacant, never Occupied with a stale value),
and a live record leaves the cache untouched. -/
theorem entry_vacant_iff_no_live_record {K V : Type} [DecidableEq K]
    (now : Instant) (k : K) (c : TtlCache K V) :
    ((c.entry now k).1 = EntryKind.Occupied ↔
      ∃ e, lhmGet c.map k = some e ∧ e.is_expired now = false) ∧
    (∀ e, lhmGet c.map k = some e → e.is_expired now = true →
      lhmGet (c.entry now k).2.map k = none) ∧
    (∀ e, lhmGet c.map k = some e → e.is_expired now = false →
      (c.entry now k).2 = c) ∧
    (lhmGet c.map k = none →
      (c.entry now k).1 = EntryKind.Vacant ∧ (c.entry now k).2 = c) ∧
    ((c.entry now k).1 = EntryKind.Vacant ↔
      lhmGet (c.entry now k).2.map k = none) := by
  rcases hg : lhmGet c.map k with _ | e
  · rw [entry_case_absent now k c hg]
    simp [hg]
  · by_cases hx : e.is_expired now = true
    · rw [entry_case_expired now k c e hg hx]
      refine ⟨⟨fun h => by simp at h, ?_⟩, fun e2 hg2 hx2 => ?_,
        fun e2 hg2 hl2 => ?_, fun h => ?_, ⟨fun h => ?_, fun h => rfl⟩⟩
      · rintro ⟨e2, hg2, hl2⟩
        rw [← Option.some.inj hg2, hx] at hl2
        simp at hl2
      · exact lhmGet_filter_ne_self c.map k
      · rw [← Option.some.inj hg2, hx] at hl2
        simp at hl2
      · cases h
      · exact lhmGet_filter_ne_self c.map k
    · have hl : e.is_expired now = false := by simpa using hx
      rw [entry_case_live now k c e hg hl]
      refine ⟨⟨fun _ => ⟨e, rfl, hl⟩, fun _ => rfl⟩, fun e2 hg2 hx2 => ?_,
        fun e2 hg2 hl2 => rfl, fun h => ?_, ⟨fun h => ?_, fun h => ?_⟩⟩
      · rw [← Option.some.inj hg2, hl] at hx2
        simp at hx2
      · cases h
      · simp at h
      · have h2 : lhmGet c.map k = none := h
        rw [hg] at h2
        cases h2

/-- Concrete instantiation of C5: `entry` on an expired key physically removes
the record, so no record for the key remains in the cache. -/
theorem entry_vacant_iff_no_live_record_witness :
    lhmGet [((1 : Nat), (⟨7, 2, 2⟩ : InternalEntry Nat))] 1 = some ⟨7, 2, 2⟩ ∧
    (⟨7, 2, 2⟩ : InternalEntry Nat).is_expired 10 = true ∧
    lhmGet ((⟨[(1, ⟨7, 2, 2⟩)], 0, 0, 0⟩ : TtlCache Nat Nat).entry 10 1).2.map 1
      = none :=
  ⟨by decide, by decide,
   (entry_vacant_iff_no_live_record 10 1
      (⟨[(1, ⟨7, 2, 2⟩)], 0, 0, 0⟩ : TtlCache Nat Nat)).2.1 ⟨7, 2, 2⟩
      (by decide) (by decide)⟩

/-- Claim C6: backward iteration halts at the first expired entry seen from the
newest end — `next_back` on a sequence whose newest entry is expired returns
none immediately, regardless of what lies before it — while forward iteration
skips each expired entry individually and continues; with heterogeneous TTLs
reverse iteration can yield none while forward iteration over the same state
still yields a live entry. -/
theorem iter_backward_halts_forward_skips {K V : Type} (now : Instant)
    (l front2 : List (K × InternalEntry V)) (k : K) (e : InternalEntry V) :
    (e.is_expired now = true → iterNextBack now (front2 ++ [(k, e)]) = none) ∧
    (e.is_expired now = true → iterNext now ((k, e) :: l) = iterNext now l) ∧
    (e.is_expired now = false →
      iterNext now ((k, e) :: l) = some ((k, e.value), l)) ∧
    iterNextBack 10 [((1 : Nat), (⟨5, 100, 100⟩ : InternalEntry Nat)),
      (2, ⟨7, 3, 3⟩)] = none ∧
    iterNext 10 [((1 : Nat), (⟨5, 100, 100⟩ : InternalEntry Nat)), (2, ⟨7, 3, 3⟩)]
      = some ((1, 5), [(2, ⟨7, 3, 3⟩)]) := by
  refine ⟨fun h => ?_, fun h => ?_, fun h => ?_, by decide, by decide⟩
  · simp [iterNextBack, List.getLast?_concat, h]
  · simp [iterNext, h]
  · simp [iterNext, h]

/-- Concrete instantiation of C6: with a live older entry before an expired
newer one, `next_back` yields none while `next` skips nothing and yields the
live entry. -/
theorem iter_backward_halts_forward_skips_witness :
    (⟨7, 3, 3⟩ : InternalEntry Nat).is_expired 10 = true ∧
    iterNextBack 10 ([((1 : Nat), (⟨5, 100, 100⟩ : InternalEntry Nat))] ++
      [(2, ⟨7, 3, 3⟩)]) = none ∧
    iterNext 10 [((2 : Nat), (⟨7, 3, 3⟩ : InternalEntry Nat)),
      (1, ⟨5, 100, 100⟩)] = iterNext 10 [((1 : Nat), ⟨5, 100, 100⟩)] :=
  ⟨by decide,
   (iter_backward_halts_forward_skips 10 [] [(1, ⟨5, 100, 100⟩)] 2
      ⟨7, 3, 3⟩).1 (by decide),
   (iter_backward_halts_forward_skips 10 [((1 : Nat), ⟨5, 100, 100⟩)] [] 2
      ⟨7, 3, 3⟩).2.1 (by decide)⟩

theorem get_fst_of_live {K V : Type} [DecidableEq K] (now : Instant)
    (c : TtlCache K V) (k : K) (e : InternalEntry V)
    (hg : lhmGet c.map k = some e) (hl : e.is_expired now = false) :
    (c.get now k).1 = some e.value := by
  simp [TtlCache.get, hg, hl]

/-- Claim C7: on a live hit `get_mut_prolong` resets the record's expiration to
now plus the originally stored duration before returning the value, so the entry
stays visible past its original deadline but under the renewed one, while
`get_mut` under the same conditions returns the value without changing the map
at all. -/
theorem prolong_renews_get_mut_frames {K V : Type} [DecidableEq K]
    (now : Instant) (k : K) (e : InternalEntry V) (c : TtlCache K V)
    (hget : lhmGet c.map k = some e) (hlive : e.is_expired now = false) :
    (c.get_mut_prolong now k).1 = some e.value ∧
    lhmGet (c.get_mut_prolong now k).2.map k
      = some { e with expiration := now + e.duration } ∧
    (∀ t, e.expiration < t → t ≤ now + e.duration →
      ((c.get_mut_prolong now k).2.get t k).1 = some e.value) ∧
    (c.get_mut now k).1 = some e.value ∧
    (c.get_mut now k).2.map = c.map := by
  have hmap : (c.get_mut_prolong now k).2.map
      = lhmModify c.map k (InternalEntry.reset_duration now) := by
    simp [TtlCache.get_mut_prolong, hget, hlive]
  have hpost := lhmGet_lhmModify c.map k (InternalEntry.reset_duration now) e hget
  refine ⟨?_, ?_, ?_, ?_, ?_⟩
  · simp [TtlCache.get_mut_prolong, hget, hlive]
  · rw [hmap]
    exact hpost
  · intro t ht1 ht2
    have hg2 : lhmGet ((c.get_mut_prolong now k).2).map k
        = some (InternalEntry.reset_duration now e) := by
      rw [hmap]
      exact hpost
    have hnx : (InternalEntry.reset_duration now e).is_expired t = false := by
      have h2 : ¬ (now + e.duration < t) := Nat.not_lt.2 ht2
      simp [InternalEntry.reset_duration, InternalEntry.is_expired, h2]
    have hfin := get_fst_of_live t ((c.get_mut_prolong now k).2) k
      (InternalEntry.reset_duration now e) hg2 hnx
    simpa [InternalEntry.reset_duration] using hfin
  · simp [TtlCache.get_mut, hget, hlive]
  · simp [TtlCache.get_mut, hget, hlive]

/-- Concrete instantiation of C7: after a renewing read at instant 4 of a record
whose original deadline is 5, a read at instant 7 — past the original deadline,
under the renewed deadline 9 — still returns the value, and `get_mut` leaves the
map unchanged. -/
theorem prolong_renews_get_mut_frames_witness :
    lhmGet [((1 : Nat), (⟨7, 5, 5⟩ : InternalEntry Nat))] 1 = some ⟨7, 5, 5⟩ ∧
    (⟨7, 5, 5⟩ : InternalEntry Nat).is_expired 4 = false ∧
    (5 : Nat) < 7 ∧ (7 : Nat) ≤ 4 + 5 ∧
    (((⟨[(1, ⟨7, 5, 5⟩)], 0, 0, 0⟩ :
        TtlCache Nat Nat).get_mut_prolong 4 1).2.get 7 1).1 = some 7 ∧
    ((⟨[(1, ⟨7, 5, 5⟩)], 0, 0, 0⟩ : TtlCache Nat Nat).get_mut 4 1).2.map
      = [(1, ⟨7, 5, 5⟩)] :=
  ⟨by decide, by decide, by decide, by decide,
   (prolong_renews_get_mut_frames 4 1 ⟨7, 5, 5⟩
      (⟨[(1, ⟨7, 5, 5⟩)], 0, 0, 0⟩ : TtlCache Nat Nat) (by decide)
      (by decide)).2.2.1 7 (by decide) (by decide),
   (prolong_renews_get_mut_frames 4 1 ⟨7, 5, 5⟩
      (⟨[(1, ⟨7, 5, 5⟩)], 0, 0, 0⟩ : TtlCache Nat Nat) (by decide)
      (by decide)).2.2.2.2⟩

/-- Claim C8: `contains_key(key)` returns exactly `get(key).is_some()` and
leaves the cache in exactly the state the corresponding `get` call would — the
same single hit-or-miss counter increment, the same untouched map — because it
is that `get` call, not an independent lookup path. -/
theorem contains_key_equals_get {K V : Type} [DecidableEq K] (now : Instant)
    (k : K) (c : TtlCache K V) :
    (c.contains_key now k).1 = (c.get now k).1.isSome ∧
    (c.contains_key now k).2 = (c.get now k).2 ∧
    ((c.contains_key now k).1 = true ↔
      ∃ e, lhmGet c.map k = some e ∧ e.is_expired now = false) ∧
    ((c.contains_key now k).1 = true →
      (c.contains_key now k).2.hits = c.hits + 1 ∧
      (c.contains_key now k).2.misses = c.misses) ∧
    ((c.contains_key now k).1 = false →
      (c.contains_key now k).2.misses = c.misses + 1 ∧
      (c.contains_key now k).2.hits = c.hits) ∧
    (c.contains_key now k).2.map = c.map := by
  rcases hg : lhmGet c.map k with _ | e
  · refine ⟨rfl, rfl, ?_, ?_, ?_, ?_⟩ <;>
      simp [TtlCache.contains_key, TtlCache.get, hg]
  · by_cases hx : e.is_expired now = true
    · refine ⟨rfl, rfl, ?_, ?_, ?_, ?_⟩ <;>
        simp [TtlCache.contains_key, TtlCache.get, hg, hx]
    · have hl : e.is_expired now = false := by simpa using hx
      refine ⟨rfl, rfl, ?_, ?_, ?_, ?_⟩ <;>
        simp [TtlCache.contains_key, TtlCache.get, hg, hl]

/-- Concrete instantiation of C8: a hit through `contains_key` increments the
hit counter exactly as the underlying `get` does. -/
theorem contains_key_equals_get_witness :
    ((⟨[(1, ⟨7, 5, 5⟩)], 3, 4, 0⟩ : TtlCache Nat Nat).contains_key 2 1).1 = true ∧
    ((⟨[(1, ⟨7, 5, 5⟩)], 3, 4, 0⟩ : TtlCache Nat Nat).contains_key 2 1).2.hits
      = 3 + 1 ∧
    ((⟨[(1, ⟨7, 5, 5⟩)], 3, 4, 0⟩ : TtlCache Nat Nat).contains_key 2 1).2.misses
      = 4 :=
  ⟨by decide,
   (contains_key_equals_get 2 1
      (⟨[(1, ⟨7, 5, 5⟩)], 3, 4, 0⟩ : TtlCache Nat Nat)).2.2.2.1 (by decide)⟩

theorem get_map_frame {K V : Type} [DecidableEq K] (now : Instant)
    (c : TtlCache K V) (k : K) : (c.get now k).2.map = c.map := by
  simp only [TtlCache.get]
  split <;> rfl

theorem get_fold_map_frame {K V : Type} [DecidableEq K]
    (qs : List (Instant × K)) :
    ∀ c : TtlCache K V,
      (qs.foldl (fun acc q => (acc.get q.1 q.2).2) c).map = c.map := by
  induction qs with
  | nil => intro c; rfl
  | cons q qs ih =>
      intro c
      rw [List.foldl_cons, ih ((c.get q.1 q.2).2), get_map_frame]

/-- Claim C9: `get(key)` returns none whenever the key is missing or its record
is expired, and it never modifies the map — an expired-but-present record is not
removed as a side effect, and the stored records, values, expirations, durations
and their order are unchanged by any number of `get` calls. -/
theorem get_makes_no_map_change {K V : Type} [DecidableEq K] (now : Instant)
    (k : K) (c : TtlCache K V) :
    (c.get now k).2.map = c.map ∧
    (lhmGet c.map k = none → (c.get now k).1 = none) ∧
    (∀ e, lhmGet c.map k = some e → e.is_expired now = true →
      (c.get now k).1 = none) ∧
    (∀ qs : List (Instant × K),
      (qs.foldl (fun acc q => (acc.get q.1 q.2).2) c).map = c.map) := by
  refine ⟨get_map_frame now c k, fun hg => ?_, fun e hg hx => ?_,
    fun qs => get_fold_map_frame qs c⟩
  · simp [TtlCache.get, hg]
  · simp [TtlCache.get, hg, hx]

/-- Concrete instantiation of C9: `get` on an expired-but-present record returns
none and leaves the record in the map. -/
theorem get_makes_no_map_change_witness :
    lhmGet [((1 : Nat), (⟨7, 2, 2⟩ : InternalEntry Nat))] 1 = some ⟨7, 2, 2⟩ ∧
    (⟨7, 2, 2⟩ : InternalEntry Nat).is_expired 9 = true ∧
    ((⟨[(1, ⟨7, 2, 2⟩)], 0, 0, 0⟩ : TtlCache Nat Nat).get 9 1).1 = none ∧
    ((⟨[(1, ⟨7, 2, 2⟩)], 0, 0, 0⟩ : TtlCache Nat Nat).get 9 1).2.map
      = [(1, ⟨7, 2, 2⟩)] :=
  ⟨by decide, by decide,
   (get_makes_no_map_change 9 1
      (⟨[(1, ⟨7, 2, 2⟩)], 0, 0, 0⟩ : TtlCache Nat Nat)).2.2.1 ⟨7, 2, 2⟩
      (by decide) (by decide),
   (get_makes_no_map_change 9 1
      (⟨[(1, ⟨7, 2, 2⟩)], 0, 0, 0⟩ : TtlCache Nat Nat)).1⟩

theorem get_stats {K V : Type} [DecidableEq K] (now : Instant) (c : TtlCache K V)
    (k : K) :
    ((c.get now k).1.isSome = true →
      (c.get now k).2.hits = c.hits + 1 ∧ (c.get now k).2.misses = c.misses) ∧
    ((c.get now k).1.isSome = false →
      (c.get now k).2.misses = c.misses + 1 ∧ (c.get now k).2.hits = c.hits) := by
  by_cases hS : ((lhmGet c.map k).bind
      (fun x => if x.is_expired now then none else some x.value)).isSome
  · constructor
    · intro h
      exact ⟨by simp [TtlCache.get, hS], by simp [TtlCache.get, hS]⟩
    · intro h
      rw [show (c.get now k).1.isSome
          = ((lhmGet c.map k).bind
              (fun x => if x.is_expired now then none else some x.value)).isSome
          from by simp [TtlCache.get, hS], hS] at h
      cases h
  · have hS2 : ((lhmGet c.map k).bind
        (fun x => if x.is_expired now then none else some x.value)).isSome = false := by
      simpa using hS
    constructor
    · intro h
      rw [show (c.get now k).1.isSome
          = ((lhmGet c.map k).bind
              (fun x => if x.is_expired now then none else some x.value)).isSome
          from by simp [TtlCache.get, hS2], hS2] at h
      cases h
    · intro h
      exact ⟨by simp [TtlCache.get, hS2], by simp [TtlCache.get, hS2]⟩

/-- Claim C10: cloning a cache with stats enabled copies the current hit count,
miss count and the `since` timestamp into the clone — the clone's counters start
at the original's current values, not at zero — along with the map, and the
clone's subsequent counter updates are computed from those copied values as
fresh state (the code initialises brand-new atomic cells from the loaded
counts, so the two caches share nothing afterwards). -/
theorem clone_copies_counters_and_map {K V : Type} [DecidableEq K]
    (c : TtlCache K V) (now : Instant) (k : K) :
    (c.clone).hits = c.hits ∧ (c.clone).misses = c.misses ∧
    (c.clone).since = c.since ∧ (c.clone).map = c.map ∧
    (((c.clone).get now k).1.isSome = true →
      ((c.clone).get now k).2.hits = c.hits + 1 ∧
      ((c.clone).get now k).2.misses = c.misses) ∧
    (((c.clone).get now k).1.isSome = false →
      ((c.clone).get now k).2.misses = c.misses + 1 ∧
      ((c.clone).get now k).2.hits = c.hits) :=
  ⟨rfl, rfl, rfl, rfl, (get_stats now (c.clone) k).1, (get_stats now (c.clone) k).2⟩

/-- Concrete instantiation of C10: the clone of a cache with counters 5 and 6
starts from those values, and a miss on the clone counts up from 6, not from 0. -/
theorem clone_copies_counters_and_map_witness :
    (⟨[], 5, 6, 7⟩ : TtlCache Nat Nat).clone.hits = 5 ∧
    (((⟨[], 5, 6, 7⟩ : TtlCache Nat Nat).clone.get 0 0).1.isSome = false) ∧
    ((⟨[], 5, 6, 7⟩ : TtlCache Nat Nat).clone.get 0 0).2.misses = 6 + 1 :=
  ⟨by decide, by decide,
   ((clone_copies_counters_and_map (⟨[], 5, 6, 7⟩ : TtlCache Nat Nat) 0
      0).2.2.2.2.2 (by decide)).1⟩
